import Mathlib

/-!
Verification of the `cl_generic_vec` crate (conradludgate/generic-vec).

The embedding models a `GenericVec<S>` as a capacity, a buffer of slots and a
length.  A buffer slot is `Option α`: `some v` is an initialized slot holding
`v`, `none` is an uninitialized (or moved-out) slot.  The machine `usize` is
modelled as `Nat` with explicit wrapping modulo `2 ^ 64` exactly where the
source uses `wrapping_add` / `wrapping_sub`; checked arithmetic
(`checked_add`, `checked_mul`) is modelled with `Option`.  A function that can
panic returns `Option` (`none` = panic); `Except` is used where the state
after an unwinding panic matters.

Storage reservation is backend specific, so the growth policy is a parameter
`resv : Nat → Nat → Option Nat` (old capacity, requested capacity ↦ new
capacity, `none` = allocation failure/panic), matching the `Storage::reserve`
contract of `src/raw.rs`: on success the new capacity is at least the request.
`fixedResv` instantiates it with the fixed-capacity array backend of
`src/raw/array.rs`.

The raw cursor (`src/iter/raw_cursor.rs`) and the range check
(`src/slice.rs`) are referenced by the sources but their files are absent
from the repository snapshot; they are modelled from the specification
(sections 4.5 and 6) and marked as such below.
-/

namespace CLGenericVec

/-- Number of values of `usize` on the modelled 64-bit platform. -/
def USIZE : Nat := 2 ^ 64

/-- Largest value of `isize` on the modelled 64-bit platform. -/
def ISIZE_MAX : Nat := 2 ^ 63 - 1

/-- `usize::wrapping_add`: for operands below `USIZE` (every `usize` value)
this equals `(a + b) mod USIZE`, written without `Nat.mod` so that terms stay
reducible on symbolic arguments. -/
def wadd (a b : Nat) : Nat := if a + b < USIZE then a + b else a + b - USIZE

/-- `usize::wrapping_sub`: for operands below `USIZE` (every `usize` value)
this equals `(a - b) mod USIZE` in the two's-complement sense. -/
def wsub (a b : Nat) : Nat := if b ≤ a then a - b else a + USIZE - b

/-- `usize::checked_add`: `none` on overflow. -/
def checkedAdd (a b : Nat) : Option Nat := if a + b < USIZE then some (a + b) else none

/-- `usize::checked_mul`: `none` on overflow. -/
def checkedMul (a b : Nat) : Option Nat := if a * b < USIZE then some (a * b) else none

/-- The model of `GenericVec<S>` (src/lib.rs): a storage of `cap` slots
together with the `len` field.  Slot `j` of the buffer is `buf j`; slots at
indices `≥ cap` do not exist physically and are never read by well-formed
runs. -/
@[ext]
structure GVec (α : Type) where
  cap : Nat
  buf : Nat → Option α
  len : Nat

variable {α : Type}

/-- The invariant maintained by the safe API (spec section 3): the length
never exceeds the capacity, and the first `len` slots are initialized.
`cap < USIZE` reflects that a Rust allocation holds at most `isize::MAX`
elements. -/
def WF (s : GVec α) : Prop :=
  s.cap < USIZE ∧ s.len ≤ s.cap ∧ ∀ j, j < s.len → (s.buf j).isSome

instance (s : GVec α) : Decidable (WF s) := by
  unfold WF; infer_instance

/-- The slice view `Deref::deref` (src/lib.rs line 265): exactly the first
`len` buffer slots, in buffer order. -/
def asList (s : GVec α) : List (Option α) := (List.range s.len).map s.buf

/-- `GenericVec::remaining_capacity` (src/lib.rs line 458):
`capacity().wrapping_sub(len)`. -/
def remainingCapacity (s : GVec α) : Nat := wsub s.cap s.len

/-- `GenericVec::reserve` (src/lib.rs line 551): on the slow path, checked
`len + additional` (panic on overflow) then `storage.reserve`. -/
def reserveOp (resv : Nat → Nat → Option Nat) (additional : Nat) (s : GVec α) :
    Option (GVec α) :=
  if remainingCapacity s < additional then
    match checkedAdd s.len additional with
    | none => none
    | some nc => (resv s.cap nc).map (fun c => { s with cap := c })
  else some s

/-- `let _ = self.try_reserve(n)` as used by `Extend::extend` (src/iter.rs):
a failed or overflowing reservation is ignored, a successful one grows the
capacity. -/
def tryReserveIgnored (resv : Nat → Nat → Option Nat) (additional : Nat) (s : GVec α) :
    GVec α :=
  if remainingCapacity s < additional then
    match checkedAdd s.len additional with
    | none => s
    | some nc =>
      match resv s.cap nc with
      | none => s
      | some c => { s with cap := c }
  else s

/-- `GenericVec::push_unchecked` (src/lib.rs line 1120): bump the length by a
wrapping 1 and write the value at the old length. -/
def pushUnchecked (v : α) (s : GVec α) : GVec α :=
  { cap := s.cap
    buf := fun j => if j = s.len then some v else s.buf j
    len := wadd s.len 1 }

/-- `GenericVec::push` (src/lib.rs line 748): reserve one slot when full,
then `push_unchecked`. -/
def pushOp (resv : Nat → Nat → Option Nat) (v : α) (s : GVec α) : Option (GVec α) :=
  (if s.len = s.cap then reserveOp resv 1 s else some s).map (pushUnchecked v)

/-- `GenericVec::try_push` (src/lib.rs line 961): `Err(value)` when full
(the second component `some v` models `Err(v)`), otherwise `push_unchecked`. -/
def tryPush (v : α) (s : GVec α) : GVec α × Option α :=
  if s.len = s.cap then (s, some v) else (pushUnchecked v s, none)

/-- `GenericVec::pop` (src/lib.rs line 839): panic when empty, else
`pop_unchecked`: decrement the length and read the slot there. -/
def popOp (s : GVec α) : Option (Option α × GVec α) :=
  if s.len = 0 then none
  else some (s.buf (wsub s.len 1), { s with len := wsub s.len 1 })

/-- `GenericVec::insert_unchecked` (src/lib.rs line 1174): shift
`buf[i..len]` right by one (`ptr.add(1).copy_from(ptr, len - i)`), then write
the value at `i`. -/
def insertUnchecked (i : Nat) (v : α) (s : GVec α) : GVec α :=
  let cnt := wsub s.len i
  { cap := s.cap
    buf := fun j =>
      if j = i then some v
      else if i + 1 ≤ j ∧ j < i + 1 + cnt then s.buf (j - 1)
      else s.buf j
    len := wadd s.len 1 }

/-- `GenericVec::insert` (src/lib.rs line 781): panic when `index > len`,
reserve one slot when full, then `insert_unchecked`. -/
def insertOp (resv : Nat → Nat → Option Nat) (i : Nat) (v : α) (s : GVec α) :
    Option (GVec α) :=
  if i > s.len then none
  else (if s.len = s.cap then reserveOp resv 1 s else some s).map (insertUnchecked i v)

/-- `GenericVec::remove_unchecked` (src/lib.rs line 1292): read slot `i`,
then `ptr.copy_from(ptr.add(1), len.wrapping_sub(index).wrapping_sub(1))`,
with the length decremented by a wrapping 1. -/
def removeUnchecked (i : Nat) (s : GVec α) : Option α × GVec α :=
  let cnt := wsub (wsub s.len i) 1
  (s.buf i,
   { cap := s.cap
     buf := fun j => if i ≤ j ∧ j < i + cnt then s.buf (j + 1) else s.buf j
     len := wsub s.len 1 })

/-- `GenericVec::remove` (src/lib.rs line 885): the source guard is
`index > self.len()` (not `index >= len`), then `remove_unchecked`. -/
def removeOp (i : Nat) (s : GVec α) : Option (Option α × GVec α) :=
  if i > s.len then none else some (removeUnchecked i s)

/-- `GenericVec::swap_remove_unchecked` (src/lib.rs line 1367): read slot
`i`, move the last slot into it, decrement the length by a wrapping 1. -/
def swapRemoveUnchecked (i : Nat) (s : GVec α) : Option α × GVec α :=
  let l := wsub s.len 1
  (s.buf i,
   { cap := s.cap
     buf := fun j => if j = i then s.buf l else s.buf j
     len := l })

/-- `GenericVec::swap_remove` (src/lib.rs line 940): the source guard is
`index > self.len()`, then `swap_remove_unchecked`. -/
def swapRemoveOp (i : Nat) (s : GVec α) : Option (Option α × GVec α) :=
  if i > s.len then none else some (swapRemoveUnchecked i s)

/-- `GenericVec::truncate` (src/lib.rs line 585): when `len().checked_sub(n)`
succeeds, set the length to `n` and drop the tail elements (dropping leaves
the slots' bits behind; they are semantically uninitialized). -/
def truncateOp (n : Nat) (s : GVec α) : GVec α :=
  if n ≤ s.len then { s with len := n } else s

/-- `GenericVec::extend_from_slice_unchecked` (src/lib.rs line 1618): bulk
copy of the slots after the current length, then wrapping length bump. -/
def extendFromSliceUnchecked (items : List (Option α)) (s : GVec α) : GVec α :=
  { cap := s.cap
    buf := fun j =>
      if s.len ≤ j ∧ j < s.len + items.length then items.getD (j - s.len) none
      else s.buf j
    len := wadd s.len items.length }

/-- The writer loop of `clone_grow` (src/extension.rs line 34):
`for _ in 1..additional { writer.push_unchecked(value.clone()) }`.
`cl k` tells whether the `k`-th call to `clone` succeeds (`false` = the clone
implementation panics); a successful clone of `value` yields `value`.  On a
panic the writer `SliceVec` is dropped, which drops the clones written so far
but leaves the vector's length untouched, so the unwound state is the current
buffer with the original length. -/
def cloneGrowLoop (base w k : Nat) (cl : Nat → Bool) (value : α) (s : GVec α) :
    Nat → Except (GVec α) (Nat × GVec α)
  | 0 => .ok (w, s)
  | m + 1 =>
    if cl k then
      cloneGrowLoop base (w + 1) (k + 1) cl value
        { cap := s.cap
          buf := fun j => if j = base + w then some value else s.buf j
          len := s.len } m
    else .error s

/-- `clone_grow` (src/extension.rs line 34): `additional - 1` clones followed
by moving `value` itself, then the commit `set_len(writer.len() + len())`.
`.error s1` is the container state observed after the panic unwinds. -/
def cloneGrow (additional : Nat) (value : α) (cl : Nat → Bool) (s : GVec α) :
    Except (GVec α) (GVec α) :=
  if additional = 0 then .ok { s with len := wadd 0 s.len }
  else
    match cloneGrowLoop s.len 0 1 cl value s (additional - 1) with
    | .error s1 => .error s1
    | .ok (w, s1) =>
      .ok { cap := s1.cap
            buf := fun j => if j = s.len + w then some value else s1.buf j
            len := wadd (w + 1) s.len }

/-- The writer loop of `clone_extend_from_slice` (src/extension.rs line 9):
clone each slice element in order into the spare writer. -/
def cloneExtendLoop (base w k : Nat) (cl : Nat → Bool) (s : GVec α) :
    List α → Except (GVec α) (Nat × GVec α)
  | [] => .ok (w, s)
  | v :: rest =>
    if cl k then
      cloneExtendLoop base (w + 1) (k + 1) cl
        { cap := s.cap
          buf := fun j => if j = base + w then some v else s.buf j
          len := s.len } rest
    else .error s

/-- `clone_extend_from_slice` (src/extension.rs line 9) with the commit
`set_len(writer.len() + len())`; `.error` is the state after an unwinding
clone panic. -/
def cloneExtendFromSlice (items : List α) (cl : Nat → Bool) (s : GVec α) :
    Except (GVec α) (GVec α) :=
  match cloneExtendLoop s.len 0 1 cl s items with
  | .error s1 => .error s1
  | .ok (w, s1) => .ok { s1 with len := wadd w s.len }

/-- `GenericVec::grow` (src/lib.rs line 617): reserve, then the `Extension`
clone loop (here with a clone implementation that never panics). -/
def growOp (resv : Nat → Nat → Option Nat) (additional : Nat) (value : α) (s : GVec α) :
    Option (GVec α) :=
  (reserveOp resv additional s).bind
    (fun s1 => (cloneGrow additional value (fun _ => true) s1).toOption)

/-- `GenericVec::extend_from_slice` (src/lib.rs line 1647): reserve, then the
`Extension` clone loop (with a clone implementation that never panics). -/
def extendFromSliceOp (resv : Nat → Nat → Option Nat) (items : List α) (s : GVec α) :
    Option (GVec α) :=
  (reserveOp resv items.length s).bind
    (fun s1 => (cloneExtendFromSlice items (fun _ => true) s1).toOption)

/-- `GenericVec::split_off_into` (src/lib.rs line 1445): assert `i ≤ len`,
take the slice `[i, len)`, reserve room for it in `dst`, bulk copy it after
`dst`'s elements, and cut `src`'s length down to `i`. -/
def splitOffInto (resv : Nat → Nat → Option Nat) (i : Nat) (src dst : GVec α) :
    Option (GVec α × GVec α) :=
  if i > src.len then none
  else
    match reserveOp resv (src.len - i) dst with
    | none => none
    | some dst1 =>
      some ({ src with len := i },
        extendFromSliceUnchecked ((List.range (src.len - i)).map (fun t => src.buf (i + t))) dst1)

/-- `GenericVec::append` (src/lib.rs line 1489): `other.split_off_into(0, self)`.
Returns the pair `(self, other)` after the call. -/
def appendOp (resv : Nat → Nat → Option Nat) (self other : GVec α) :
    Option (GVec α × GVec α) :=
  (splitOffInto resv 0 other self).map (fun p => (p.2, p.1))

/-- `split_off_into` followed by `append` on the same pair of vectors. -/
def roundTrip (resv : Nat → Nat → Option Nat) (i : Nat) (v other : GVec α) :
    Option (GVec α × GVec α) :=
  (splitOffInto resv i v other).bind (fun p => appendOp resv p.1 p.2)

/-- Modelled from the spec: `check_range` lives in `src/slice.rs`, which is
absent from the repository snapshot.  Spec section 6: drain, drain_filter and
splice panic "if the range's start exceeds its end or the end exceeds current
length". -/
def checkRange (len a b : Nat) : Option (Nat × Nat) :=
  if a > b ∨ b > len then none else some (a, b)

/-- Modelled from the spec: `RawCursor` lives in `src/iter/raw_cursor.rs`,
which is absent from the repository snapshot.  Spec section 4.5: a two-headed
gap cursor over the sub-range `[front, back)` of a live container of length
`vlen`, with `dropped` counting the gap slots opened by prior takes. -/
@[ext]
structure RawCursor (α : Type) where
  cap : Nat
  buf : Nat → Option α
  vlen : Nat
  front : Nat
  back : Nat
  dropped : Nat

/-- `GenericVec::raw_cursor` (src/lib.rs line 1512) after `check_range`. -/
def cursorInit (s : GVec α) (a b : Nat) : RawCursor α :=
  { cap := s.cap, buf := s.buf, vlen := s.len, front := a, back := b, dropped := 0 }

/-- `RawCursor::len`: the number of unconsumed elements of the range. -/
def cursorLen (c : RawCursor α) : Nat := c.back - c.front

/-- `RawCursor::is_empty`, used by the drain and splice iterators. -/
def cursorIsEmpty (c : RawCursor α) : Bool := cursorLen c == 0

/-- Modelled from the spec (section 4.5): `take_front` reads the element at
the front boundary, advances the boundary and counts one more gap slot. -/
def takeFront (c : RawCursor α) : Option α × RawCursor α :=
  (c.buf c.front, { c with front := c.front + 1, dropped := c.dropped + 1 })

/-- `take_front` iterated as the drain-style iterators do: each step first
checks `is_empty` (as `Drain::next` does) and stops when the range is
exhausted. -/
def takeFronts : Nat → RawCursor α → List (Option α) × RawCursor α
  | 0, c => ([], c)
  | k + 1, c =>
    if cursorIsEmpty c then ([], c)
    else
      ((takeFront c).1 :: (takeFronts k (takeFront c).2).1,
        (takeFronts k (takeFront c).2).2)

/-- Modelled from the spec (section 4.5): `write_front` writes a replacement
value into the gap (at `front - dropped`) and shrinks the gap. -/
def writeFront (v : α) (c : RawCursor α) : RawCursor α :=
  { c with
    buf := fun j => if j = c.front - c.dropped then some v else c.buf j
    dropped := c.dropped - 1 }

/-- Modelled from the spec (section 4.5): `finish`/drop compacts every
element from the front boundary up to the end of the vector backward by
`dropped` slots (exactly as `skip_front` would), and reduces the container's
length by `dropped`. -/
def cursorFinish (c : RawCursor α) : GVec α :=
  { cap := c.cap
    buf := fun j =>
      if c.front - c.dropped ≤ j ∧ j < c.vlen - c.dropped then c.buf (j + c.dropped)
      else c.buf j
    len := c.vlen - c.dropped }

/-- `GenericVec::drain` (src/lib.rs line 1547) driven `k` steps and then
dropped.  `Drain::next` (src/iter/drain.rs) is `take_front` guarded by
`is_empty`; `Drain::drop` consumes the rest of the range the same way, and
then the cursor's own teardown runs `finish`.  Returns the yielded elements
and the container state after the iterator is dropped. -/
def drainRun (s : GVec α) (a b k : Nat) : Option (List (Option α) × GVec α) :=
  match checkRange s.len a b with
  | none => none
  | some _ =>
    some ((takeFronts k (cursorInit s a b)).1,
      cursorFinish
        (takeFronts (cursorLen (takeFronts k (cursorInit s a b)).2)
          (takeFronts k (cursorInit s a b)).2).2)

/-- `Extend::extend` (src/iter.rs line 36): an ignored `try_reserve` of the
size hint, then `push` of each item. -/
def extendOp (resv : Nat → Nat → Option Nat) (items : List α) (s : GVec α) :
    Option (GVec α) :=
  items.foldlM (fun acc v => pushOp resv v acc) (tryReserveIgnored resv items.length s)

/-- Modelled from the spec (section 4.5): the splice surplus path — reserve
additional capacity and bulk-insert the leftover replacement elements at the
write position, shifting the tail right.  In `Splice::drop`
(src/iter/splice.rs line 65) this is `raw.reserve(temp.len())` followed by
`raw.write_slice_front(&temp)`; it is only reached with an empty gap
(`dropped = 0`). -/
def surplusInsert (resv : Nat → Nat → Option Nat) (temp : List α) (c : RawCursor α) :
    Option (GVec α) :=
  let n := temp.length
  (resv c.cap (c.vlen - c.dropped + n)).map (fun cap1 =>
    cursorFinish
      { cap := cap1
        buf := fun j =>
          if c.front ≤ j ∧ j < c.front + n then temp[j - c.front]?
          else if c.front + n ≤ j ∧ j < c.vlen + n then c.buf (j - n)
          else c.buf j
        vlen := c.vlen + n
        front := c.front + n
        back := c.back + n
        dropped := c.dropped })

/-- The replacement loop of `Splice::drop` (src/iter/splice.rs line 32):
`while !raw.is_write_empty()` pull one replacement element and `write_front`
it; if the replacement runs out first, return (the cursor's teardown then
runs `finish`); if the gap closes first, fall into the surplus path with the
remaining elements. -/
def spliceWrite (resv : Nat → Nat → Option Nat) :
    List α → RawCursor α → Option (GVec α)
  | [], c => some (cursorFinish c)
  | v :: rest, c =>
    if c.dropped = 0 then surplusInsert resv (v :: rest) c
    else spliceWrite resv rest (writeFront v c)

/-- The branch of `Splice::drop` after `drop_n_front` (src/iter/splice.rs
line 26): if the range sits at the back of the vector, finish the cursor and
`extend` the vector with the replacement; otherwise run the `write_front`
loop. -/
def spliceAfterTakes (resv : Nat → Nat → Option Nat) (repl : List α)
    (c : RawCursor α) : Option (GVec α) :=
  if c.back = c.vlen then extendOp resv repl (cursorFinish c)
  else spliceWrite resv repl c

/-- `GenericVec::splice` (src/lib.rs line 1590) created and immediately
dropped.  `Splice::drop` (src/iter/splice.rs line 18): `drop_n_front` of the
whole unconsumed range, then either (range at the back of the vector) finish
and `extend` with the replacement, or the `write_front` loop. -/
def spliceRun (resv : Nat → Nat → Option Nat) (s : GVec α) (a b : Nat)
    (repl : List α) : Option (GVec α) :=
  match checkRange s.len a b with
  | none => none
  | some _ =>
    spliceAfterTakes resv repl
      (takeFronts (cursorLen (cursorInit s a b)) (cursorInit s a b)).2

/-- `GenericVec::pop_array_unchecked` (src/lib.rs line 1262), after the
`CONST_CAPACITY` guard: wrapping-decrement the length by `N` and read the `N`
slots there. -/
def popArrayUnchecked (N : Nat) (s : GVec α) : List (Option α) × GVec α :=
  let l := wsub s.len N
  ((List.range N).map (fun t => s.buf (l + t)), { s with len := l })

/-- `GenericVec::try_pop_array` (src/lib.rs line 1049): `None` exactly when
`is_empty()`, otherwise `pop_array_unchecked` — whose `CONST_CAPACITY` guard
(`Some(n) if n < N` for a fixed-capacity storage) panics (`.error ()`). -/
def tryPopArray (N : Nat) (constCap : Option Nat) (s : GVec α) :
    Except Unit (Option (List (Option α) × GVec α)) :=
  if s.len = 0 then .ok none
  else
    match constCap with
    | some n => if n < N then .error () else .ok (some (popArrayUnchecked N s))
    | none => .ok (some (popArrayUnchecked N s))

/-- `GenericVec::capacity` (src/lib.rs line 443): `isize::MAX as usize` for a
zero-sized item type, the storage slot count otherwise. -/
def genericVecCapacity (itemSize storageLen : Nat) : Nat :=
  if itemSize = 0 then ISIZE_MAX else storageLen

/-- `INIT_ALLOC_CAPACITY` (src/raw/heap.rs line 6). -/
def INIT_ALLOC_CAPACITY : Nat := 4

/-- The capacity chosen by `Heap::reserve_slow` (src/raw/heap/stable.rs line
162): `assert!(new_capacity > len)`, then
`new_capacity.max(cap.checked_mul(2).expect(..)).max(INIT_ALLOC_CAPACITY)`;
`none` models the assert failure or the doubling overflow panic. -/
def reserveSlowTarget (cap newCap : Nat) : Option Nat :=
  if newCap ≤ cap then none
  else
    match checkedMul cap 2 with
    | none => none
    | some doubled => some (max (max newCap doubled) INIT_ALLOC_CAPACITY)

/-- The reservation policy of the fixed-capacity storages
(src/raw/array.rs `reserve`: panic when the request exceeds the fixed
capacity).  The `cap < USIZE` conjunct records that a Rust storage never
holds `usize::MAX` or more elements. -/
def fixedResv (cap newCap : Nat) : Option Nat :=
  if newCap ≤ cap ∧ cap < USIZE then some cap else none

/-- The `Storage::reserve` contract (src/raw.rs line 31): on success the
capacity is at least the request and the storage only ever grows. -/
def ResvOk (resv : Nat → Nat → Option Nat) : Prop :=
  ∀ c n c2, resv c n = some c2 → n ≤ c2 ∧ c ≤ c2 ∧ c2 < USIZE

/-- One call of the safe mutation API, for invariant preservation. -/
inductive Op (α : Type) where
  | push (v : α)
  | tryPushV (v : α)
  | pop
  | insertAt (i : Nat) (v : α)
  | removeAt (i : Nat)
  | swapRemoveAt (i : Nat)
  | truncateTo (n : Nat)
  | growBy (n : Nat) (v : α)
  | extendSlice (items : List α)
  | drainRange (a b : Nat)
  | spliceRange (a b : Nat) (repl : List α)

/-- The documented precondition of each safe call (spec section 4.4).  Only
`remove` and `swap_remove` need one beyond what their own guards enforce:
the table requires `i < length`. -/
def preOk : Op α → GVec α → Bool
  | .removeAt i, s => i < s.len
  | .swapRemoveAt i, s => i < s.len
  | _, _ => true

/-- One step of the safe API; `none` means the call panicked. -/
def stepOp (resv : Nat → Nat → Option Nat) : Op α → GVec α → Option (GVec α)
  | .push v, s => pushOp resv v s
  | .tryPushV v, s => some (tryPush v s).1
  | .pop, s => (popOp s).map Prod.snd
  | .insertAt i v, s => insertOp resv i v s
  | .removeAt i, s => (removeOp i s).map Prod.snd
  | .swapRemoveAt i, s => (swapRemoveOp i s).map Prod.snd
  | .truncateTo n, s => some (truncateOp n s)
  | .growBy n v, s => growOp resv n v s
  | .extendSlice items, s => extendFromSliceOp resv items s
  | .drainRange a b, s => (drainRun s a b (b - a)).map Prod.snd
  | .spliceRange a b repl, s => spliceRun resv s a b repl

/-- A sequence of safe calls, each within its documented precondition;
`none` when a call panicked or was out of contract. -/
def runSafe (resv : Nat → Nat → Option Nat) : List (Op α) → GVec α → Option (GVec α)
  | [], s => some s
  | op :: ops, s =>
    if preOk op s then (stepOp resv op s).bind (runSafe resv ops)
    else none

/-- The contents a panicking run left behind, for closed statements about
`Except` results. -/
def errAsList (r : Except (GVec α) (GVec α)) : Option (List (Option α)) :=
  match r with
  | .error e => some (asList e)
  | .ok _ => none

/-- The container state after a drain of `[a, b)` has been dropped: the
prefix `[0, a)` stays, the tail `[b, len)` is compacted backward by `b - a`,
and the length shrinks by `b - a`. -/
def drainFinal (s : GVec α) (a b : Nat) : GVec α :=
  { cap := s.cap
    buf := fun j => if a ≤ j ∧ j < s.len - (b - a) then s.buf (j + (b - a)) else s.buf j
    len := s.len - (b - a) }

/-- The well-formedness of a live cursor (spec section 4.5): the gap count
never exceeds the front boundary, the boundaries are ordered inside the
vector, and every slot outside the gap region `[front - dropped, front)` that
the cursor can still touch is initialized. -/
def CursorInv (c : RawCursor α) : Prop :=
  c.cap < USIZE ∧ c.dropped ≤ c.front ∧ c.front ≤ c.back ∧ c.back ≤ c.vlen ∧
  c.vlen ≤ c.cap ∧
  (∀ j, j < c.front - c.dropped → (c.buf j).isSome) ∧
  (∀ j, c.front ≤ j → j < c.vlen → (c.buf j).isSome)

/-! Concrete instances used by the per-claim evaluations. -/

/-- A vector `[7]` of capacity 2. -/
def vecC2 : GVec Nat := { cap := 2, buf := fun j => if j = 0 then some 7 else none, len := 1 }

/-- A vector `[7]` of capacity 4. -/
def vecC3 : GVec Nat := { cap := 4, buf := fun j => if j = 0 then some 7 else none, len := 1 }

/-- A clone implementation that panics on its second invocation. -/
def clC3 : Nat → Bool := fun k => k != 2

/-- A full vector `[0, 1, 2, 3, 4, 5, 6, 7]` of capacity 8. -/
def vecC4 : GVec Nat := { cap := 8, buf := fun j => if j < 8 then some j else none, len := 8 }

/-- A vector `[0, 1, 2, 3, 4, 5, 6, 7]` of capacity 10. -/
def vecC5 : GVec Nat := { cap := 10, buf := fun j => if j < 8 then some j else none, len := 8 }

/-- A vector `[3]` of capacity 2. -/
def vecC6 : GVec Nat := { cap := 2, buf := fun j => if j = 0 then some 3 else none, len := 1 }

/-- A vector `[1, 2]` of capacity 4. -/
def vecC9 : GVec Nat :=
  { cap := 4, buf := fun j => if j = 0 then some 1 else if j = 1 then some 2 else none, len := 2 }

/-- A non-empty destination vector `[5]` of capacity 4. -/
def otherC9 : GVec Nat := { cap := 4, buf := fun j => if j = 0 then some 5 else none, len := 1 }

/-- An empty destination vector of capacity 4. -/
def emptyC9 : GVec Nat := { cap := 4, buf := fun _ => none, len := 0 }

/-- A vector `[7]` of capacity 2. -/
def vecC10 : GVec Nat := { cap := 2, buf := fun j => if j = 0 then some 7 else none, len := 1 }

/-- An empty vector of capacity 4. -/
def startC1 : GVec Nat := { cap := 4, buf := fun _ => none, len := 0 }

/-- A sequence exercising every operation kind of `Op`. -/
def opsC1 : List (Op Nat) :=
  [.push 10, .push 20, .insertAt 1 30, .removeAt 0, .pop, .growBy 2 7,
   .extendSlice [1], .drainRange 1 2, .spliceRange 0 1 [5, 6], .truncateTo 1,
   .tryPushV 9]

/-! ## Arithmetic and list helpers -/

theorem USIZE_eq : USIZE = 18446744073709551616 := by norm_num [USIZE]

theorem wadd_eq {a b : Nat} (h : a + b < USIZE) : wadd a b = a + b := by
  unfold wadd
  rw [if_pos h]

theorem wsub_eq {a b : Nat} (hba : b ≤ a) (_ha : a < USIZE) : wsub a b = a - b := by
  unfold wsub
  rw [if_pos hba]

theorem remainingCapacity_eq {s : GVec α} (hWF : WF s) :
    remainingCapacity s = s.cap - s.len :=
  wsub_eq hWF.2.1 hWF.1

theorem asList_length (s : GVec α) : (asList s).length = s.len := by
  simp [asList]

theorem asList_getElem (s : GVec α) (j : Nat) (h : j < s.len) :
    (asList s)[j]? = some (s.buf j) := by
  simp [asList, h]

theorem getD_range_map (n j : Nat) (f : Nat → Option α) (h : j < n) :
    ((List.range n).map f).getD j none = f j := by
  simp [List.getD, h]

theorem range_drop (b n : Nat) : (List.range n).drop b = (List.range (n - b)).map (b + ·) := by
  rcases le_or_lt b n with h | h
  · conv_lhs => rw [show n = b + (n - b) from by omega]
    rw [List.range_add]
    rw [List.drop_left' (by simp)]
  · rw [List.drop_eq_nil_of_le (by simpa using Nat.le_of_lt h)]
    rw [show n - b = 0 from by omega]
    simp

theorem asList_take (s : GVec α) (a : Nat) (h : a ≤ s.len) :
    (asList s).take a = (List.range a).map s.buf := by
  rw [asList, ← List.map_take, List.take_range, Nat.min_eq_left h]

theorem asList_drop (s : GVec α) (b : Nat) :
    (asList s).drop b = (List.range (s.len - b)).map (fun t => s.buf (b + t)) := by
  rw [asList, ← List.map_drop, range_drop, List.map_map]
  rfl

/-! ## Component lemmas for reserve and push -/

theorem fixedResv_ok : ResvOk fixedResv := by
  intro c n c2 h
  simp only [fixedResv] at h
  split at h
  · cases h
    exact ⟨by omega, Nat.le_refl _, by omega⟩
  · cases h

theorem reserveOp_state {resv : Nat → Nat → Option Nat} {n : Nat} {s s1 : GVec α}
    (h : reserveOp resv n s = some s1) : s1.buf = s.buf ∧ s1.len = s.len := by
  unfold reserveOp at h
  split at h
  · split at h
    · cases h
    · rw [Option.map_eq_some'] at h
      obtain ⟨c, _, rfl⟩ := h
      exact ⟨rfl, rfl⟩
  · cases h
    exact ⟨rfl, rfl⟩

theorem reserveOp_wf {resv : Nat → Nat → Option Nat} (hres : ResvOk resv) {n : Nat}
    {s s1 : GVec α} (hWF : WF s) (h : reserveOp resv n s = some s1) :
    WF s1 ∧ s1.buf = s.buf ∧ s1.len = s.len ∧ s1.len + n ≤ s1.cap := by
  obtain ⟨hc, hl, hinit⟩ := hWF
  unfold reserveOp at h
  rw [remainingCapacity_eq ⟨hc, hl, hinit⟩] at h
  split at h
  · split at h
    · cases h
    · next nc hca =>
      rw [Option.map_eq_some'] at h
      obtain ⟨c, hr, rfl⟩ := h
      obtain ⟨h1, h2, h3⟩ := hres s.cap nc c hr
      have hnc : nc = s.len + n := by
        unfold checkedAdd at hca
        split at hca
        · cases hca; rfl
        · cases hca
      refine ⟨⟨h3, ?_, fun j hj => hinit j hj⟩, rfl, rfl, ?_⟩
      · show s.len ≤ c
        omega
      · show s.len + n ≤ c
        omega
  · cases h
    exact ⟨⟨hc, hl, hinit⟩, rfl, rfl, by omega⟩

theorem pushUnchecked_wf {s : GVec α} (hWF : WF s) (hlt : s.len < s.cap) (v : α) :
    WF (pushUnchecked v s) ∧ (pushUnchecked v s).len = s.len + 1 ∧
    (pushUnchecked v s).cap = s.cap := by
  obtain ⟨hc, hl, hinit⟩ := hWF
  have hlen : wadd s.len 1 = s.len + 1 := wadd_eq (by omega)
  refine ⟨⟨hc, ?_, ?_⟩, hlen, rfl⟩
  · simp only [pushUnchecked, hlen]
    omega
  · intro j hj
    simp only [pushUnchecked, hlen] at hj ⊢
    by_cases hje : j = s.len
    · simp [hje]
    · simp only [hje, if_false]
      exact hinit j (by omega)

theorem pushOp_wf {resv : Nat → Nat → Option Nat} (hres : ResvOk resv) {v : α}
    {s s1 : GVec α} (hWF : WF s) (h : pushOp resv v s = some s1) : WF s1 := by
  have hl := hWF.2.1
  unfold pushOp at h
  split at h
  · rw [Option.map_eq_some'] at h
    obtain ⟨s0, hr, rfl⟩ := h
    obtain ⟨hWF0, _, _, hcap⟩ := reserveOp_wf hres hWF hr
    exact (pushUnchecked_wf hWF0 (by omega) v).1
  · next hne =>
    simp only [Option.map_some'] at h
    cases h
    exact (pushUnchecked_wf hWF (by omega) v).1

/-! ## Claim C8: capacity for zero-sized element types -/

/-- C8: for a zero-sized element type, `GenericVec::capacity` returns
`isize::MAX as usize` — the maximum element count a Rust allocation can
represent — independently of the backend storage's slot count. -/
theorem C8_zst_capacity_unbounded (storageLen : Nat) :
    genericVecCapacity 0 storageLen = ISIZE_MAX ∧
    ISIZE_MAX = 2 ^ 63 - 1 ∧
    ∀ other : Nat, genericVecCapacity 0 other = genericVecCapacity 0 storageLen :=
  ⟨rfl, rfl, fun _ => rfl⟩

/-! ## Claim C7: heap growth policy -/

/-- C7: `Heap::reserve_slow` grows to exactly
`max (max new_capacity (cap * 2)) INIT_ALLOC_CAPACITY` with
`INIT_ALLOC_CAPACITY = 4`, and the doubling is overflow-checked and fatal. -/
theorem C7_reserve_slow_growth (cap newCap : Nat) (h : cap < newCap) :
    INIT_ALLOC_CAPACITY = 4 ∧
    (cap * 2 < USIZE →
      reserveSlowTarget cap newCap = some (max (max newCap (cap * 2)) 4)) ∧
    (USIZE ≤ cap * 2 → reserveSlowTarget cap newCap = none) := by
  have hn : ¬ newCap ≤ cap := by omega
  refine ⟨rfl, ?_, ?_⟩
  · intro h2
    simp [reserveSlowTarget, checkedMul, hn, h2, INIT_ALLOC_CAPACITY]
  · intro h2
    have h3 : ¬ cap * 2 < USIZE := by omega
    simp [reserveSlowTarget, checkedMul, hn, h3]

theorem C7_witness :
    (8 : Nat) < 20 ∧
    (INIT_ALLOC_CAPACITY = 4 ∧
     (8 * 2 < USIZE → reserveSlowTarget 8 20 = some (max (max 20 (8 * 2)) 4)) ∧
     (USIZE ≤ 8 * 2 → reserveSlowTarget 8 20 = none)) :=
  ⟨by decide, C7_reserve_slow_growth 8 20 (by decide)⟩

/-! ## Claim C2: the remove / swap_remove bounds guard -/

/-- C2: evaluation of the code at the failing input `remove(1)` on the
length-1 vector `[7]`: the call does not panic (the guard is `index > len`,
not `index ≥ len`), the "removed element" is read from the uninitialized
slot 1, and the length is silently decremented — where the claim and the
method's own documentation require a panic for every `i ≥ length`. -/
theorem C2_remove_at_len_does_not_panic :
    vecC2.len = 1 ∧
    (removeOp 1 vecC2).isSome = true ∧
    (removeOp 1 vecC2).map (fun p => p.1) = some none ∧
    (removeOp 1 vecC2).map (fun p => p.2.len) = some 0 ∧
    (swapRemoveOp 1 vecC2).isSome = true ∧
    (swapRemoveOp 1 vecC2).map (fun p => p.1) = some none := by
  decide

/-! ## Claim C5: the splice scenario -/

/-- C5: on the vector `[0,1,2,3,4,5,6,7]`, running `splice(2..5, [9,8])` to
completion (dropping the `Splice` iterator without consuming it) leaves the
vector `[0,1,9,8,5,6,7]`: the removed range is replaced by the shorter
replacement, the gap is closed, and the tail keeps its order. -/
theorem C5_splice_shorter_replacement :
    asList vecC5 = [some 0, some 1, some 2, some 3, some 4, some 5, some 6, some 7] ∧
    (spliceRun fixedResv vecC5 2 5 [9, 8]).map asList =
      some [some 0, some 1, some 9, some 8, some 5, some 6, some 7] ∧
    (spliceRun fixedResv vecC5 2 5 [9, 8]).map GVec.len = some 7 := by
  decide

/-! ## Claim C6: try_push -/

/-- C6: `try_push` is total (never panics, aborts or allocates — the
capacity is unchanged in both branches), fails exactly when there is no
spare slot (`remaining_capacity() = 0`, i.e. the vector is full — the only
way space for one more element could be obtained without allocating), on
failure returns the value and leaves the vector untouched, and otherwise
writes the value at `buffer[len]` and increments the length. -/
theorem C6_try_push (v : α) (s : GVec α) (hWF : WF s) :
    ((tryPush v s).2.isSome ↔ remainingCapacity s = 0) ∧
    ((tryPush v s).1.cap = s.cap) ∧
    (s.len = s.cap → tryPush v s = (s, some v)) ∧
    (s.len ≠ s.cap →
      tryPush v s = (pushUnchecked v s, none) ∧
      (pushUnchecked v s).len = s.len + 1 ∧
      (pushUnchecked v s).buf s.len = some v ∧
      ∀ j, j ≠ s.len → (pushUnchecked v s).buf j = s.buf j) := by
  obtain ⟨hc, hl, hinit⟩ := hWF
  have hrem : remainingCapacity s = s.cap - s.len := remainingCapacity_eq ⟨hc, hl, hinit⟩
  refine ⟨?_, ?_, ?_, ?_⟩
  · by_cases h : s.len = s.cap
    · simp [tryPush, h, hrem]
    · simp [tryPush, h, hrem]
      omega
  · by_cases h : s.len = s.cap <;> simp [tryPush, h, pushUnchecked]
  · intro h
    simp [tryPush, h]
  · intro h
    refine ⟨by simp [tryPush, h], wadd_eq (by omega), by simp [pushUnchecked], ?_⟩
    intro j hj
    simp [pushUnchecked, hj]

theorem C6_witness :
    WF vecC6 ∧ ((tryPush 4 vecC6).2.isSome ↔ remainingCapacity vecC6 = 0) :=
  ⟨by decide, (C6_try_push 4 vecC6 (by decide)).1⟩

/-! ## Claim C10: try_pop_array -/

/-- C10: `try_pop_array::<N>` returns `None` exactly when the vector is
empty; in particular a vector with `0 < length < N` does not yield `None`
(contrary to the method's own documentation), for any backend
`CONST_CAPACITY`. -/
theorem C10_try_pop_array_none_iff_empty (N : Nat) (constCap : Option Nat) (s : GVec α) :
    (tryPopArray N constCap s = .ok none ↔ s.len = 0) ∧
    (0 < s.len → s.len < N → tryPopArray N constCap s ≠ .ok none) := by
  have key : s.len ≠ 0 → tryPopArray N constCap s ≠ .ok none := by
    intro h0
    unfold tryPopArray
    cases constCap with
    | none => simp [h0]
    | some n => by_cases hn : n < N <;> simp [h0, hn]
  constructor
  · constructor
    · intro h
      by_contra h0
      exact key h0 h
    · intro h0
      simp [tryPopArray, h0]
  · intro hpos _
    exact key (by omega)

theorem C10_witness :
    0 < vecC10.len ∧ vecC10.len < 2 ∧ tryPopArray 2 none vecC10 ≠ .ok none :=
  ⟨by decide, by decide,
   (C10_try_pop_array_none_iff_empty 2 none vecC10).2 (by decide) (by decide)⟩

/-! ## Claim C3: clone panic during grow / extend_from_slice -/

theorem cloneGrowLoop_error {base : Nat} {cl : Nat → Bool} {value : α} :
    ∀ (m w k : Nat) (s e : GVec α), cloneGrowLoop base w k cl value s m = .error e →
      e.len = s.len ∧ e.cap = s.cap ∧ ∀ j, j < base → e.buf j = s.buf j := by
  intro m
  induction m with
  | zero =>
    intro w k s e h
    simp [cloneGrowLoop] at h
  | succ m ih =>
    intro w k s e h
    rw [cloneGrowLoop] at h
    split at h
    · obtain ⟨h1, h2, h3⟩ := ih (w + 1) (k + 1) _ e h
      refine ⟨h1, h2, fun j hj => ?_⟩
      rw [h3 j hj]
      simp only []
      rw [if_neg (by omega)]
    · cases h
      exact ⟨rfl, rfl, fun j _ => rfl⟩

theorem cloneExtendLoop_error {base : Nat} {cl : Nat → Bool} :
    ∀ (items : List α) (w k : Nat) (s e : GVec α),
      cloneExtendLoop base w k cl s items = .error e →
      e.len = s.len ∧ e.cap = s.cap ∧ ∀ j, j < base → e.buf j = s.buf j := by
  intro items
  induction items with
  | nil =>
    intro w k s e h
    simp [cloneExtendLoop] at h
  | cons v rest ih =>
    intro w k s e h
    rw [cloneExtendLoop] at h
    split at h
    · obtain ⟨h1, h2, h3⟩ := ih (w + 1) (k + 1) _ e h
      refine ⟨h1, h2, fun j hj => ?_⟩
      rw [h3 j hj]
      simp only []
      rw [if_neg (by omega)]
    · cases h
      exact ⟨rfl, rfl, fun j _ => rfl⟩

/-- C3 (amended): if a `Clone` implementation panics during `grow` or
`extend_from_slice`, the container observed after the unwind holds exactly
the elements it had before the call — the successfully cloned elements are
dropped with the spare-capacity writer, not kept — and the
length/initialization invariant still holds (no double drop, no
uninitialized slot inside the live prefix). -/
theorem C3_clone_panic_rollback (s : GVec α) (n : Nat) (v : α) (cl : Nat → Bool)
    (items : List α) (hWF : WF s) :
    (∀ e, cloneGrow n v cl s = .error e → asList e = asList s ∧ WF e) ∧
    (∀ e, cloneExtendFromSlice items cl s = .error e → asList e = asList s ∧ WF e) := by
  obtain ⟨hc, hl, hinit⟩ := hWF
  have finish : ∀ e : GVec α, e.len = s.len → e.cap = s.cap →
      (∀ j, j < s.len → e.buf j = s.buf j) → asList e = asList s ∧ WF e := by
    intro e h1 h2 h3
    constructor
    · unfold asList
      rw [h1]
      exact List.map_congr_left (fun j hj => h3 j (by simpa using hj))
    · refine ⟨by rw [h2]; exact hc, by rw [h1, h2]; exact hl, fun j hj => ?_⟩
      rw [h1] at hj
      rw [h3 j hj]
      exact hinit j hj
  constructor
  · intro e h
    unfold cloneGrow at h
    split at h
    · cases h
    · split at h
      · next s1 hL =>
        cases h
        obtain ⟨h1, h2, h3⟩ := cloneGrowLoop_error (n - 1) 0 1 s e hL
        exact finish e h1 h2 (fun j hj => h3 j hj)
      · cases h
  · intro e h
    unfold cloneExtendFromSlice at h
    split at h
    · next s1 hL =>
      cases h
      obtain ⟨h1, h2, h3⟩ := cloneExtendLoop_error items 0 1 s e hL
      exact finish e h1 h2 (fun j hj => h3 j hj)
    · cases h

theorem C3_witness :
    WF vecC3 ∧ errAsList (cloneGrow 3 5 clC3 vecC3) = some (asList vecC3) := by
  refine ⟨by decide, ?_⟩
  have h := (C3_clone_panic_rollback vecC3 3 5 clC3 [] (by decide)).1
  cases hEq : cloneGrow 3 5 clC3 vecC3 with
  | error e =>
    simp only [errAsList, (h e hEq).1]
  | ok s2 =>
    have hev : errAsList (cloneGrow 3 5 clC3 vecC3) = some [some 7] := by decide
    rw [hEq] at hev
    simp [errAsList] at hev

/-- C3 counterexample: with a clone implementation that panics on its second
call, `grow(3, 5)` on the vector `[7]` unwinds leaving the container `[7]` —
not `[7, 5]` (the pre-call contents plus the `k - 1 = 1` successfully cloned
element) as the claim states. -/
theorem C3_counterexample :
    asList vecC3 = [some 7] ∧
    errAsList (cloneGrow 3 5 clC3 vecC3) = some [some 7] ∧
    some [some 7] ≠ some (asList vecC3 ++ [some 5]) := by
  decide

/-! ## Claim C9: split_off_into / append -/

/-- C9 counterexample: with a non-empty destination `other = [5]`, splitting
`v = [1,2]` at index 1 into it and appending it back yields `[1,5,2]`, not
the original `[1,2]`: `append` moves `other`'s pre-existing elements into `v`
as well. -/
theorem C9_counterexample :
    asList vecC9 = [some 1, some 2] ∧
    (roundTrip fixedResv 1 vecC9 otherC9).map (fun p => asList p.1) =
      some [some 1, some 5, some 2] ∧
    [some 1, some 5, some 2] ≠ [some 1, some 2] := by
  decide

/-- C9 (amended): for `i ≤ v.len` and an initially empty `other`,
`v.split_off_into(i, other)` followed by `v.append(other)` restores `v`'s
original element sequence and length (capacities may differ), leaving
`other` empty. -/
theorem C9_split_append_restores (resv : Nat → Nat → Option Nat) (i : Nat)
    (v other : GVec α) (hWF : WF v) (hEmpty : other.len = 0) :
    ∀ p, roundTrip resv i v other = some p →
      asList p.1 = asList v ∧ p.1.len = v.len ∧ p.2.len = 0 := by
  obtain ⟨hc, hl, hinit⟩ := hWF
  intro p h
  unfold roundTrip at h
  rw [Option.bind_eq_some] at h
  obtain ⟨q, h1, h2⟩ := h
  unfold splitOffInto at h1
  split at h1
  · cases h1
  · next hi =>
    split at h1
    · cases h1
    · next dst1 hres1 =>
      cases h1
      obtain ⟨hbuf1, hlen1⟩ := reserveOp_state hres1
      -- the state after split_off_into
      set slice : List (Option α) :=
        (List.range (v.len - i)).map (fun t => v.buf (i + t)) with hslice
      have hsliceLen : slice.length = v.len - i := by simp [hslice]
      have hilen : i ≤ v.len := by omega
      have ho1len : (extendFromSliceUnchecked slice dst1).len = v.len - i := by
        simp only [extendFromSliceUnchecked, hlen1, hEmpty, hsliceLen]
        rw [wadd_eq (by omega)]
        omega
      have ho1buf : ∀ t, t < v.len - i →
          (extendFromSliceUnchecked slice dst1).buf t = v.buf (i + t) := by
        intro t ht
        simp only [extendFromSliceUnchecked, hlen1, hEmpty, hsliceLen, Nat.sub_zero]
        rw [if_pos (by omega), hslice]
        exact getD_range_map (v.len - i) t _ ht
      -- the append step
      unfold appendOp at h2
      rw [Option.map_eq_some'] at h2
      obtain ⟨q2, h3, rfl⟩ := h2
      unfold splitOffInto at h3
      rw [if_neg (by omega)] at h3
      set o1 := extendFromSliceUnchecked slice dst1 with ho1
      set slice2 : List (Option α) :=
        (List.range (o1.len - 0)).map (fun t => o1.buf (0 + t)) with hslice2
      have hslice2Len : slice2.length = v.len - i := by simp [hslice2, ho1len]
      have hres2 : reserveOp resv (o1.len - 0) { v with len := i } =
          some { v with len := i } := by
        unfold reserveOp
        rw [if_neg]
        have hrem : remainingCapacity { v with len := i } = v.cap - i := by
          have := wsub_eq (a := v.cap) (b := i) (by omega) hc
          simpa [remainingCapacity] using this
        rw [hrem, ho1len]
        omega
      rw [hres2] at h3
      cases h3
      -- the final state
      have hv2len : (extendFromSliceUnchecked slice2 { v with len := i }).len = v.len := by
        simp only [extendFromSliceUnchecked, hslice2Len]
        show wadd i (v.len - i) = v.len
        rw [wadd_eq (by omega)]
        omega
      refine ⟨?_, hv2len, rfl⟩
      unfold asList
      rw [hv2len]
      refine List.map_congr_left (fun j hj => ?_)
      rw [List.mem_range] at hj
      by_cases hji : j < i
      · show (if i ≤ j ∧ j < i + slice2.length then slice2.getD (j - i) none
          else v.buf j) = v.buf j
        rw [if_neg (by omega)]
      · show (if i ≤ j ∧ j < i + slice2.length then slice2.getD (j - i) none
          else v.buf j) = v.buf j
        rw [if_pos (by rw [hslice2Len]; omega)]
        have hd : slice2.getD (j - i) none = o1.buf (0 + (j - i)) := by
          rw [hslice2]
          exact getD_range_map _ _ _ (by rw [ho1len]; omega)
        rw [hd]
        have := ho1buf (j - i) (by omega)
        rw [show (0 + (j - i)) = j - i from by omega, this,
          show i + (j - i) = j from by omega]

theorem C9_witness :
    WF vecC9 ∧ emptyC9.len = 0 ∧
    (roundTrip fixedResv 1 vecC9 emptyC9).elim False
      (fun p => asList p.1 = asList vecC9 ∧ p.1.len = vecC9.len ∧ p.2.len = 0) := by
  refine ⟨by decide, by decide, ?_⟩
  have h := C9_split_append_restores fixedResv 1 vecC9 emptyC9 (by decide) (by decide)
  cases hEq : roundTrip fixedResv 1 vecC9 emptyC9 with
  | none =>
    have hs : (roundTrip fixedResv 1 vecC9 emptyC9).isSome = true := by decide
    rw [hEq] at hs
    cases hs
  | some p =>
    exact h p hEq

/-! ## Claim C4: drain -/

theorem takeFronts_snd : ∀ (k : Nat) (c : RawCursor α), k ≤ cursorLen c →
    (takeFronts k c).2 = { c with front := c.front + k, dropped := c.dropped + k } := by
  intro k
  induction k with
  | zero =>
    intro c _
    simp [takeFronts]
  | succ k ih =>
    intro c h
    have hne : ¬ (cursorIsEmpty c = true) := by
      simp only [cursorIsEmpty, cursorLen, beq_iff_eq] at *
      omega
    rw [takeFronts, if_neg hne]
    show (takeFronts k (takeFront c).2).2 = _
    rw [ih (takeFront c).2 (by simp only [cursorLen, takeFront] at h ⊢; omega)]
    ext <;> simp [takeFront] <;> omega

theorem takeFronts_fst : ∀ (k : Nat) (c : RawCursor α), k ≤ cursorLen c →
    (takeFronts k c).1 = (List.range k).map (fun t => c.buf (c.front + t)) := by
  intro k
  induction k with
  | zero =>
    intro c _
    simp [takeFronts]
  | succ k ih =>
    intro c h
    have hne : ¬ (cursorIsEmpty c = true) := by
      simp only [cursorIsEmpty, cursorLen, beq_iff_eq] at *
      omega
    rw [takeFronts, if_neg hne]
    show (takeFront c).1 :: (takeFronts k (takeFront c).2).1 = _
    rw [ih (takeFront c).2 (by simp only [cursorLen, takeFront] at h ⊢; omega)]
    rw [List.range_succ_eq_map, List.map_cons, List.map_map]
    refine congrArg₂ _ (by simp [takeFront]) ?_
    refine List.map_congr_left (fun t ht => ?_)
    simp only [takeFront, Function.comp]
    congr 1
    omega

theorem drainFinal_len (s : GVec α) (a b : Nat) :
    (drainFinal s a b).len = s.len - (b - a) := rfl

theorem drainFinal_wf {s : GVec α} {a b : Nat} (hWF : WF s) (hab : a ≤ b)
    (hb : b ≤ s.len) : WF (drainFinal s a b) := by
  obtain ⟨hc, hl, hinit⟩ := hWF
  refine ⟨hc, ?_, fun j hj => ?_⟩
  · show s.len - (b - a) ≤ s.cap
    omega
  · show (if a ≤ j ∧ j < s.len - (b - a) then s.buf (j + (b - a)) else s.buf j).isSome
    rw [drainFinal_len] at hj
    by_cases hcond : a ≤ j ∧ j < s.len - (b - a)
    · rw [if_pos hcond]
      exact hinit _ (by omega)
    · rw [if_neg hcond]
      exact hinit _ (by omega)

theorem drainFinal_asList {s : GVec α} {a b : Nat} (hab : a ≤ b) (hb : b ≤ s.len) :
    asList (drainFinal s a b) = (asList s).take a ++ (asList s).drop b := by
  rw [asList_take s a (le_trans hab hb), asList_drop s b]
  show (List.range (s.len - (b - a))).map (drainFinal s a b).buf = _
  rw [show s.len - (b - a) = a + (s.len - b) from by omega, List.range_add,
    List.map_append, List.map_map]
  refine congrArg₂ _ ?_ ?_
  · refine List.map_congr_left (fun j hj => ?_)
    rw [List.mem_range] at hj
    show (if a ≤ j ∧ j < s.len - (b - a) then s.buf (j + (b - a)) else s.buf j) = s.buf j
    rw [if_neg (by omega)]
  · refine List.map_congr_left (fun t ht => ?_)
    rw [List.mem_range] at ht
    show (if a ≤ a + t ∧ a + t < s.len - (b - a) then s.buf (a + t + (b - a))
      else s.buf (a + t)) = s.buf (b + t)
    rw [if_pos (by omega)]
    congr 1
    omega

theorem drainRun_spec (s : GVec α) (a b k : Nat) (hab : a ≤ b) (hb : b ≤ s.len)
    (hk : k ≤ b - a) :
    drainRun s a b k =
      some ((List.range k).map (fun t => s.buf (a + t)), drainFinal s a b) := by
  unfold drainRun
  rw [show checkRange s.len a b = some (a, b) from by
    unfold checkRange; rw [if_neg (by omega)]]
  have hlen0 : cursorLen (cursorInit s a b) = b - a := by
    simp [cursorLen, cursorInit]
  have h1 := takeFronts_fst k (cursorInit s a b) (by omega)
  have h2 := takeFronts_snd k (cursorInit s a b) (by omega)
  rw [h1, h2]
  have hlen1 : cursorLen { cursorInit s a b with
      front := (cursorInit s a b).front + k, dropped := (cursorInit s a b).dropped + k } =
      b - (a + k) := by
    simp [cursorLen, cursorInit]
  rw [hlen1]
  rw [takeFronts_snd (b - (a + k)) _ (by simp [cursorLen, cursorInit])]
  refine congrArg some (congrArg₂ _ rfl ?_)
  apply GVec.ext
  · rfl
  · funext j
    show (if (a + k + (b - (a + k))) - (0 + k + (b - (a + k))) ≤ j ∧
        j < s.len - (0 + k + (b - (a + k))) then s.buf (j + (0 + k + (b - (a + k))))
      else s.buf j) =
      (if a ≤ j ∧ j < s.len - (b - a) then s.buf (j + (b - a)) else s.buf j)
    rw [show a + k + (b - (a + k)) - (0 + k + (b - (a + k))) = a from by omega,
      show 0 + k + (b - (a + k)) = b - a from by omega]
  · show s.len - (0 + k + (b - (a + k))) = s.len - (b - a)
    omega

/-- C4: draining `[a, b)` and dropping the iterator yields exactly the
elements originally at positions `a..b` in order, and leaves the vector
equal to the concatenation of the original prefix `[0, a)` and suffix
`[b, len)` with length `len - (b - a)` — in particular draining `[0, len)`
leaves length 0 — and the same final state is reached when the `Drain`
iterator is dropped after only `k ≤ b - a` of its elements were consumed. -/
theorem C4_drain_exhaustion (s : GVec α) (a b : Nat) (hWF : WF s) (hab : a ≤ b)
    (hb : b ≤ s.len) :
    drainRun s a b (b - a) =
      some ((List.range (b - a)).map (fun t => s.buf (a + t)), drainFinal s a b) ∧
    (drainFinal s a b).len = s.len - (b - a) ∧
    asList (drainFinal s a b) = (asList s).take a ++ (asList s).drop b ∧
    WF (drainFinal s a b) ∧
    (a = 0 → b = s.len → (drainFinal s a b).len = 0) ∧
    ∀ k, k ≤ b - a →
      (drainRun s a b k).map Prod.snd = some (drainFinal s a b) := by
  refine ⟨drainRun_spec s a b (b - a) hab hb (by omega), drainFinal_len s a b,
    drainFinal_asList hab hb, drainFinal_wf hWF hab hb, ?_, ?_⟩
  · intro h0 hbl
    rw [drainFinal_len, h0, hbl]
    omega
  · intro k hk
    rw [drainRun_spec s a b k hab hb hk]
    rfl

theorem C4_witness :
    WF vecC4 ∧ 4 ≤ 7 ∧ 7 ≤ vecC4.len ∧
    (drainFinal vecC4 4 7).len = vecC4.len - (7 - 4) :=
  ⟨by decide, by decide, by decide,
    (C4_drain_exhaustion vecC4 4 7 (by decide) (by decide) (by decide)).2.1⟩

/-! ## Claim C1: the length/initialization invariant across the safe API -/

theorem popOp_wf {s : GVec α} (hWF : WF s) {r : Option α × GVec α}
    (h : popOp s = some r) : WF r.2 := by
  obtain ⟨hc, hl, hinit⟩ := hWF
  unfold popOp at h
  split at h
  · cases h
  · next h0 =>
    cases h
    have hws : wsub s.len 1 = s.len - 1 := wsub_eq (by omega) (by omega)
    refine ⟨hc, ?_, fun j hj => ?_⟩
    · show wsub s.len 1 ≤ s.cap
      rw [hws]
      omega
    · rw [show ({ s with len := wsub s.len 1 } : GVec α).len = wsub s.len 1 from rfl,
        hws] at hj
      exact hinit j (by omega)

theorem insertUnchecked_wf {s : GVec α} (hWF : WF s) {i : Nat} (hi : i ≤ s.len)
    (hlt : s.len < s.cap) (v : α) : WF (insertUnchecked i v s) := by
  obtain ⟨hc, hl, hinit⟩ := hWF
  have hwa : wadd s.len 1 = s.len + 1 := wadd_eq (by omega)
  have hws : wsub s.len i = s.len - i := wsub_eq (by omega) (by omega)
  refine ⟨hc, ?_, fun j hj => ?_⟩
  · show wadd s.len 1 ≤ s.cap
    rw [hwa]
    omega
  · rw [show (insertUnchecked i v s).len = wadd s.len 1 from rfl, hwa] at hj
    show (if j = i then some v
      else if i + 1 ≤ j ∧ j < i + 1 + wsub s.len i then s.buf (j - 1)
      else s.buf j).isSome
    rw [hws]
    by_cases h1 : j = i
    · rw [if_pos h1]
      rfl
    · rw [if_neg h1]
      by_cases h2 : i + 1 ≤ j ∧ j < i + 1 + (s.len - i)
      · rw [if_pos h2]
        exact hinit _ (by omega)
      · rw [if_neg h2]
        exact hinit _ (by omega)

theorem insertOp_wf {resv : Nat → Nat → Option Nat} (hres : ResvOk resv) {i : Nat}
    {v : α} {s s1 : GVec α} (hWF : WF s) (h : insertOp resv i v s = some s1) :
    WF s1 := by
  have hl := hWF.2.1
  unfold insertOp at h
  split at h
  · cases h
  · next hi =>
    split at h
    · rw [Option.map_eq_some'] at h
      obtain ⟨s0, hr, rfl⟩ := h
      obtain ⟨hWF0, hbuf0, hlen0, hcap0⟩ := reserveOp_wf hres hWF hr
      exact insertUnchecked_wf hWF0 (by omega) (by omega) v
    · next hne =>
      simp only [Option.map_some'] at h
      cases h
      exact insertUnchecked_wf hWF (by omega) (by omega) v

theorem removeOp_wf {s : GVec α} (hWF : WF s) {i : Nat} (hpre : i < s.len)
    {r : Option α × GVec α} (h : removeOp i s = some r) : WF r.2 := by
  obtain ⟨hc, hl, hinit⟩ := hWF
  unfold removeOp at h
  rw [if_neg (by omega)] at h
  cases h
  have hws1 : wsub s.len i = s.len - i := wsub_eq (by omega) (by omega)
  have hws2 : wsub (wsub s.len i) 1 = s.len - i - 1 := by
    rw [hws1]
    exact wsub_eq (by omega) (by omega)
  have hws3 : wsub s.len 1 = s.len - 1 := wsub_eq (by omega) (by omega)
  refine ⟨hc, ?_, fun j hj => ?_⟩
  · show wsub s.len 1 ≤ s.cap
    rw [hws3]
    omega
  · rw [show (removeUnchecked i s).2.len = wsub s.len 1 from rfl, hws3] at hj
    show (if i ≤ j ∧ j < i + wsub (wsub s.len i) 1 then s.buf (j + 1)
      else s.buf j).isSome
    rw [hws2]
    by_cases h2 : i ≤ j ∧ j < i + (s.len - i - 1)
    · rw [if_pos h2]
      exact hinit _ (by omega)
    · rw [if_neg h2]
      exact hinit _ (by omega)

theorem swapRemoveOp_wf {s : GVec α} (hWF : WF s) {i : Nat} (hpre : i < s.len)
    {r : Option α × GVec α} (h : swapRemoveOp i s = some r) : WF r.2 := by
  obtain ⟨hc, hl, hinit⟩ := hWF
  unfold swapRemoveOp at h
  rw [if_neg (by omega)] at h
  cases h
  have hws : wsub s.len 1 = s.len - 1 := wsub_eq (by omega) (by omega)
  refine ⟨hc, ?_, fun j hj => ?_⟩
  · show wsub s.len 1 ≤ s.cap
    rw [hws]
    omega
  · rw [show (swapRemoveUnchecked i s).2.len = wsub s.len 1 from rfl, hws] at hj
    show (if j = i then s.buf (wsub s.len 1) else s.buf j).isSome
    rw [hws]
    by_cases h1 : j = i
    · rw [if_pos h1]
      exact hinit _ (by omega)
    · rw [if_neg h1]
      exact hinit _ (by omega)

theorem truncateOp_wf {s : GVec α} (hWF : WF s) (n : Nat) : WF (truncateOp n s) := by
  obtain ⟨hc, hl, hinit⟩ := hWF
  unfold truncateOp
  split
  · next hle =>
    refine ⟨hc, by show n ≤ s.cap; omega, fun j hj => ?_⟩
    have hj2 : j < n := hj
    exact hinit j (by omega)
  · exact ⟨hc, hl, hinit⟩

theorem cloneGrowLoop_true {base : Nat} {value : α} :
    ∀ (m w k : Nat) (s : GVec α),
      cloneGrowLoop base w k (fun _ => true) value s m =
        .ok (w + m,
          { cap := s.cap
            buf := fun j => if base + w ≤ j ∧ j < base + w + m then some value else s.buf j
            len := s.len }) := by
  intro m
  induction m with
  | zero =>
    intro w k s
    have hb : (fun j => if base + w ≤ j ∧ j < base + w + 0 then some value else s.buf j) =
        s.buf := by
      funext j
      rw [if_neg (by omega)]
    rw [cloneGrowLoop, Nat.add_zero, hb]
  | succ m ih =>
    intro w k s
    rw [cloneGrowLoop, if_pos rfl, ih (w + 1) (k + 1)]
    refine congrArg Except.ok (congrArg₂ Prod.mk (by omega) (GVec.ext rfl ?_ rfl))
    funext j
    show (if base + (w + 1) ≤ j ∧ j < base + (w + 1) + m then some value
      else if j = base + w then some value else s.buf j) =
      (if base + w ≤ j ∧ j < base + w + (m + 1) then some value else s.buf j)
    by_cases h1 : base + (w + 1) ≤ j ∧ j < base + (w + 1) + m
    · rw [if_pos h1, if_pos (by omega)]
    · rw [if_neg h1]
      by_cases h2 : j = base + w
      · rw [if_pos h2, if_pos (by omega)]
      · rw [if_neg h2, if_neg (by omega)]

theorem cloneGrow_true (n : Nat) (v : α) (s : GVec α) (hn : 0 < n)
    (hlt : s.len + n < USIZE) :
    cloneGrow n v (fun _ => true) s =
      .ok { cap := s.cap
            buf := fun j => if s.len ≤ j ∧ j < s.len + n then some v else s.buf j
            len := s.len + n } := by
  unfold cloneGrow
  rw [if_neg (by omega), cloneGrowLoop_true (n - 1) 0 1 s]
  refine congrArg Except.ok (GVec.ext rfl ?_ ?_)
  · funext j
    show (if j = s.len + (0 + (n - 1)) then some v
      else if s.len + 0 ≤ j ∧ j < s.len + 0 + (n - 1) then some v else s.buf j) =
      (if s.len ≤ j ∧ j < s.len + n then some v else s.buf j)
    by_cases h1 : j = s.len + (0 + (n - 1))
    · rw [if_pos h1, if_pos (by omega)]
    · rw [if_neg h1]
      by_cases h2 : s.len + 0 ≤ j ∧ j < s.len + 0 + (n - 1)
      · rw [if_pos h2, if_pos (by omega)]
      · rw [if_neg h2, if_neg (by omega)]
  · show wadd (0 + (n - 1) + 1) s.len = s.len + n
    rw [wadd_eq (by omega)]
    omega

theorem growOp_wf {resv : Nat → Nat → Option Nat} (hres : ResvOk resv) {n : Nat}
    {v : α} {s s1 : GVec α} (hWF : WF s) (h : growOp resv n v s = some s1) :
    WF s1 := by
  unfold growOp at h
  rw [Option.bind_eq_some] at h
  obtain ⟨s0, hr, h2⟩ := h
  obtain ⟨hWF0, hbuf0, hlen0, hcap0⟩ := reserveOp_wf hres hWF hr
  obtain ⟨hc0, hl0, hinit0⟩ := hWF0
  rcases Nat.eq_zero_or_pos n with h0 | h0
  · subst h0
    rw [show cloneGrow 0 v (fun _ => true) s0 = .ok s0 from by
      unfold cloneGrow
      rw [if_pos rfl]
      show Except.ok { s0 with len := wadd 0 s0.len } = Except.ok s0
      rw [show wadd 0 s0.len = s0.len from by rw [wadd_eq (by omega)]; omega]] at h2
    cases h2
    exact ⟨hc0, hl0, hinit0⟩
  · rw [cloneGrow_true n v s0 h0 (by omega)] at h2
    cases h2
    refine ⟨hc0, ?_, fun j hj => ?_⟩
    · show s0.len + n ≤ s0.cap
      omega
    · have hj2 : j < s0.len + n := hj
      show (if s0.len ≤ j ∧ j < s0.len + n then some v else s0.buf j).isSome
      by_cases hcase : s0.len ≤ j ∧ j < s0.len + n
      · rw [if_pos hcase]
        rfl
      · rw [if_neg hcase]
        exact hinit0 j (by omega)

theorem cloneExtendLoop_true {base : Nat} :
    ∀ (items : List α) (w k : Nat) (s : GVec α),
      cloneExtendLoop base w k (fun _ => true) s items =
        .ok (w + items.length,
          { cap := s.cap
            buf := fun j => if base + w ≤ j ∧ j < base + w + items.length
              then items[j - (base + w)]? else s.buf j
            len := s.len }) := by
  intro items
  induction items with
  | nil =>
    intro w k s
    have hb : (fun j => if base + w ≤ j ∧ j < base + w + List.length ([] : List α) then
        ([] : List α)[j - (base + w)]? else s.buf j) = s.buf := by
      funext j
      rw [if_neg (by simp)]
    rw [cloneExtendLoop, hb, show w + List.length ([] : List α) = w from by simp]
  | cons v rest ih =>
    intro w k s
    rw [cloneExtendLoop, if_pos rfl, ih (w + 1) (k + 1)]
    refine congrArg Except.ok
      (congrArg₂ Prod.mk (by simp; omega) (GVec.ext rfl ?_ rfl))
    funext j
    show (if base + (w + 1) ≤ j ∧ j < base + (w + 1) + rest.length then
        rest[j - (base + (w + 1))]?
      else if j = base + w then some v else s.buf j) =
      (if base + w ≤ j ∧ j < base + w + (v :: rest).length then
        (v :: rest)[j - (base + w)]? else s.buf j)
    by_cases h1 : base + (w + 1) ≤ j ∧ j < base + (w + 1) + rest.length
    · rw [if_pos h1, if_pos (by simp; omega)]
      rw [show j - (base + w) = (j - (base + (w + 1))) + 1 from by omega]
      simp
    · rw [if_neg h1]
      by_cases h2 : j = base + w
      · rw [if_pos h2, if_pos (by simp; omega)]
        rw [show j - (base + w) = 0 from by omega]
        simp
      · rw [if_neg h2, if_neg (by simp; omega)]

theorem cloneExtendFromSlice_true (items : List α) (s : GVec α)
    (hlt : s.len + items.length < USIZE) :
    cloneExtendFromSlice items (fun _ => true) s =
      .ok { cap := s.cap
            buf := fun j => if s.len ≤ j ∧ j < s.len + items.length
              then items[j - s.len]? else s.buf j
            len := s.len + items.length } := by
  unfold cloneExtendFromSlice
  rw [cloneExtendLoop_true items 0 1 s]
  refine congrArg Except.ok (GVec.ext rfl ?_ ?_)
  · funext j
    show (if s.len + 0 ≤ j ∧ j < s.len + 0 + items.length then items[j - (s.len + 0)]?
      else s.buf j) =
      (if s.len ≤ j ∧ j < s.len + items.length then items[j - s.len]? else s.buf j)
    rw [show s.len + 0 = s.len from by omega]
  · show wadd (0 + items.length) s.len = s.len + items.length
    rw [wadd_eq (by omega)]
    omega

theorem extendFromSliceOp_wf {resv : Nat → Nat → Option Nat} (hres : ResvOk resv)
    {items : List α} {s s1 : GVec α} (hWF : WF s)
    (h : extendFromSliceOp resv items s = some s1) : WF s1 := by
  unfold extendFromSliceOp at h
  rw [Option.bind_eq_some] at h
  obtain ⟨s0, hr, h2⟩ := h
  obtain ⟨hWF0, hbuf0, hlen0, hcap0⟩ := reserveOp_wf hres hWF hr
  obtain ⟨hc0, hl0, hinit0⟩ := hWF0
  rw [cloneExtendFromSlice_true items s0 (by omega)] at h2
  cases h2
  refine ⟨hc0, ?_, fun j hj => ?_⟩
  · show s0.len + items.length ≤ s0.cap
    omega
  · have hj2 : j < s0.len + items.length := hj
    show (if s0.len ≤ j ∧ j < s0.len + items.length then items[j - s0.len]?
      else s0.buf j).isSome
    by_cases hcase : s0.len ≤ j ∧ j < s0.len + items.length
    · rw [if_pos hcase, List.getElem?_eq_getElem (by omega)]
      rfl
    · rw [if_neg hcase]
      exact hinit0 j (by omega)

theorem tryReserveIgnored_wf {resv : Nat → Nat → Option Nat} (hres : ResvOk resv)
    {n : Nat} {s : GVec α} (hWF : WF s) : WF (tryReserveIgnored resv n s) := by
  obtain ⟨hc, hl, hinit⟩ := hWF
  unfold tryReserveIgnored
  split
  · split
    · exact ⟨hc, hl, hinit⟩
    · next nc hca =>
      have hnc : nc = s.len + n := by
        unfold checkedAdd at hca
        split at hca
        · cases hca
          rfl
        · cases hca
      rcases hr : resv s.cap nc with _ | c
      · exact ⟨hc, hl, hinit⟩
      · obtain ⟨h1, h2, h3⟩ := hres _ _ _ hr
        refine ⟨h3, ?_, fun j hj => hinit j hj⟩
        show s.len ≤ c
        omega
  · exact ⟨hc, hl, hinit⟩

theorem foldlM_push_wf {resv : Nat → Nat → Option Nat} (hres : ResvOk resv) :
    ∀ (items : List α) (s s1 : GVec α), WF s →
      List.foldlM (fun acc v => pushOp resv v acc) s items = some s1 → WF s1 := by
  intro items
  induction items with
  | nil =>
    intro s s1 hWF h
    cases h
    exact hWF
  | cons v rest ih =>
    intro s s1 hWF h
    rw [List.foldlM_cons] at h
    rcases h1 : pushOp resv v s with _ | s2
    · rw [h1] at h
      cases h
    · rw [h1] at h
      exact ih s2 s1 (pushOp_wf hres hWF h1) h

theorem extendOp_wf {resv : Nat → Nat → Option Nat} (hres : ResvOk resv)
    {items : List α} {s s1 : GVec α} (hWF : WF s)
    (h : extendOp resv items s = some s1) : WF s1 := by
  unfold extendOp at h
  exact foldlM_push_wf hres items _ s1 (tryReserveIgnored_wf hres hWF) h

theorem cursorFinish_wf {c : RawCursor α} (hInv : CursorInv c) :
    WF (cursorFinish c) := by
  obtain ⟨hc, hd, hfb, hbv, hvc, hin1, hin2⟩ := hInv
  refine ⟨hc, ?_, fun j hj => ?_⟩
  · show c.vlen - c.dropped ≤ c.cap
    omega
  · rw [show (cursorFinish c).len = c.vlen - c.dropped from rfl] at hj
    show (if c.front - c.dropped ≤ j ∧ j < c.vlen - c.dropped then c.buf (j + c.dropped)
      else c.buf j).isSome
    by_cases hcase : c.front - c.dropped ≤ j ∧ j < c.vlen - c.dropped
    · rw [if_pos hcase]
      exact hin2 _ (by omega) (by omega)
    · rw [if_neg hcase]
      exact hin1 _ (by omega)

theorem writeFront_inv {c : RawCursor α} (hInv : CursorInv c) (_hd : ¬ c.dropped = 0)
    (v : α) : CursorInv (writeFront v c) := by
  obtain ⟨hc, hdf, hfb, hbv, hvc, hin1, hin2⟩ := hInv
  refine ⟨hc, by show c.dropped - 1 ≤ c.front; omega, hfb, hbv, hvc,
    fun j hj => ?_, fun j hj1 hj2 => ?_⟩
  · rw [show (writeFront v c).front = c.front from rfl,
      show (writeFront v c).dropped = c.dropped - 1 from rfl] at hj
    show (if j = c.front - c.dropped then some v else c.buf j).isSome
    by_cases he : j = c.front - c.dropped
    · rw [if_pos he]
      rfl
    · rw [if_neg he]
      exact hin1 _ (by omega)
  · show (if j = c.front - c.dropped then some v else c.buf j).isSome
    by_cases he : j = c.front - c.dropped
    · rw [if_pos he]
      rfl
    · rw [if_neg he]
      exact hin2 _ hj1 hj2

theorem surplusInsert_wf {resv : Nat → Nat → Option Nat} (hres : ResvOk resv)
    {temp : List α} {c : RawCursor α} (hInv : CursorInv c) (hd0 : c.dropped = 0)
    {s1 : GVec α} (h : surplusInsert resv temp c = some s1) : WF s1 := by
  obtain ⟨hc, hdf, hfb, hbv, hvc, hin1, hin2⟩ := hInv
  unfold surplusInsert at h
  rw [Option.map_eq_some'] at h
  obtain ⟨cap1, hr, rfl⟩ := h
  obtain ⟨h1, h2, h3⟩ := hres _ _ _ hr
  apply cursorFinish_wf
  refine ⟨h3, ?_, ?_, ?_, ?_, fun j hj => ?_, fun j hj1 hj2 => ?_⟩
  · show c.dropped ≤ c.front + temp.length
    omega
  · show c.front + temp.length ≤ c.back + temp.length
    omega
  · show c.back + temp.length ≤ c.vlen + temp.length
    omega
  · show c.vlen + temp.length ≤ cap1
    omega
  · have hj2 : j < c.front + temp.length - c.dropped := hj
    show (if c.front ≤ j ∧ j < c.front + temp.length then temp[j - c.front]?
      else if c.front + temp.length ≤ j ∧ j < c.vlen + temp.length then
        c.buf (j - temp.length)
      else c.buf j).isSome
    by_cases hc1 : c.front ≤ j ∧ j < c.front + temp.length
    · rw [if_pos hc1, List.getElem?_eq_getElem (by omega)]
      rfl
    · rw [if_neg hc1, if_neg (by omega)]
      exact hin1 _ (by omega)
  · have hj1a : c.front + temp.length ≤ j := hj1
    have hj2a : j < c.vlen + temp.length := hj2
    show (if c.front ≤ j ∧ j < c.front + temp.length then temp[j - c.front]?
      else if c.front + temp.length ≤ j ∧ j < c.vlen + temp.length then
        c.buf (j - temp.length)
      else c.buf j).isSome
    rw [if_neg (by omega), if_pos (by omega)]
    exact hin2 _ (by omega) (by omega)

theorem spliceWrite_wf {resv : Nat → Nat → Option Nat} (hres : ResvOk resv) :
    ∀ (repl : List α) (c : RawCursor α), CursorInv c → ∀ {s1 : GVec α},
      spliceWrite resv repl c = some s1 → WF s1 := by
  intro repl
  induction repl with
  | nil =>
    intro c hInv s1 h
    rw [spliceWrite] at h
    cases h
    exact cursorFinish_wf hInv
  | cons v rest ih =>
    intro c hInv s1 h
    rw [spliceWrite] at h
    split at h
    · next hd0 =>
      exact surplusInsert_wf hres hInv hd0 h
    · next hd0 =>
      exact ih _ (writeFront_inv hInv hd0 v) h

theorem drainRun_some_range {s : GVec α} {a b k : Nat} {r : List (Option α) × GVec α}
    (h : drainRun s a b k = some r) : a ≤ b ∧ b ≤ s.len := by
  unfold drainRun at h
  split at h
  · cases h
  · next pr hcr =>
    unfold checkRange at hcr
    split at hcr
    · cases hcr
    · next hcond =>
      exact ⟨by omega, by omega⟩

theorem spliceRun_wf {resv : Nat → Nat → Option Nat} (hres : ResvOk resv)
    {s : GVec α} {a b : Nat} {repl : List α} {s1 : GVec α} (hWF : WF s)
    (h : spliceRun resv s a b repl = some s1) : WF s1 := by
  obtain ⟨hc, hl, hinit⟩ := hWF
  unfold spliceRun at h
  split at h
  · cases h
  · next pr hcr =>
    have hab : a ≤ b ∧ b ≤ s.len := by
      unfold checkRange at hcr
      split at hcr
      · cases hcr
      · next hcond =>
        exact ⟨by omega, by omega⟩
    rw [show cursorLen (cursorInit s a b) = b - a from by simp [cursorLen, cursorInit]] at h
    rw [takeFronts_snd (b - a) _ (by simp [cursorLen, cursorInit])] at h
    have hInv : CursorInv { cursorInit s a b with
        front := (cursorInit s a b).front + (b - a),
        dropped := (cursorInit s a b).dropped + (b - a) } := by
      refine ⟨hc, ?_, ?_, ?_, ?_, fun j hj => ?_, fun j hj1 hj2 => ?_⟩
      · show 0 + (b - a) ≤ a + (b - a)
        omega
      · show a + (b - a) ≤ b
        omega
      · show b ≤ s.len
        omega
      · show s.len ≤ s.cap
        omega
      · show (s.buf j).isSome
        have hj2 : j < a + (b - a) - (0 + (b - a)) := hj
        exact hinit j (by omega)
      · show (s.buf j).isSome
        have hj1a : a + (b - a) ≤ j := hj1
        have hj2a : j < s.len := hj2
        exact hinit j (by omega)
    unfold spliceAfterTakes at h
    split at h
    · exact extendOp_wf hres (cursorFinish_wf hInv) h
    · exact spliceWrite_wf hres repl _ hInv h

theorem stepOp_wf {resv : Nat → Nat → Option Nat} (hres : ResvOk resv) {op : Op α}
    {s s1 : GVec α} (hWF : WF s) (hpre : preOk op s = true)
    (h : stepOp resv op s = some s1) : WF s1 := by
  cases op with
  | push v => exact pushOp_wf hres hWF h
  | tryPushV v =>
    cases h
    unfold tryPush
    split
    · exact hWF
    · next hne =>
      exact (pushUnchecked_wf hWF (by have := hWF.2.1; omega) v).1
  | pop =>
    rw [show stepOp resv Op.pop s = (popOp s).map Prod.snd from rfl] at h
    rw [Option.map_eq_some'] at h
    obtain ⟨r, h1, rfl⟩ := h
    exact popOp_wf hWF h1
  | insertAt i v => exact insertOp_wf hres hWF h
  | removeAt i =>
    rw [show stepOp resv (Op.removeAt i) s = (removeOp i s).map Prod.snd from rfl] at h
    rw [Option.map_eq_some'] at h
    obtain ⟨r, h1, rfl⟩ := h
    exact removeOp_wf hWF (by simpa [preOk] using hpre) h1
  | swapRemoveAt i =>
    rw [show stepOp resv (Op.swapRemoveAt i) s = (swapRemoveOp i s).map Prod.snd from
      rfl] at h
    rw [Option.map_eq_some'] at h
    obtain ⟨r, h1, rfl⟩ := h
    exact swapRemoveOp_wf hWF (by simpa [preOk] using hpre) h1
  | truncateTo n =>
    cases h
    exact truncateOp_wf hWF n
  | growBy n v => exact growOp_wf hres hWF h
  | extendSlice items => exact extendFromSliceOp_wf hres hWF h
  | drainRange a b =>
    rw [show stepOp resv (Op.drainRange a b) s = (drainRun s a b (b - a)).map Prod.snd
      from rfl] at h
    rw [Option.map_eq_some'] at h
    obtain ⟨p, h1, rfl⟩ := h
    obtain ⟨hab, hb⟩ := drainRun_some_range h1
    rw [drainRun_spec s a b (b - a) hab hb (Nat.le_refl _)] at h1
    cases h1
    exact drainFinal_wf hWF hab hb
  | spliceRange a b repl => exact spliceRun_wf hres hWF h

/-- C1: across every sequence of safe operations — push, try_push, pop,
insert, remove, swap_remove, truncate, grow, extend_from_slice, drain,
splice — invoked within their documented preconditions, the invariant
`len ≤ capacity` with the first `len` buffer slots initialized is
maintained, and the `as_slice`/`Deref` view is exactly the first `len`
buffer slots holding the live elements in order.  The reservation policy is
any backend satisfying the `Storage::reserve` contract. -/
theorem C1_safe_ops_preserve_invariant (resv : Nat → Nat → Option Nat)
    (hres : ResvOk resv) :
    ∀ (ops : List (Op α)) (s : GVec α), WF s →
      ∀ s2, runSafe resv ops s = some s2 →
        WF s2 ∧ (asList s2).length = s2.len ∧
        ∀ j, j < s2.len → (asList s2)[j]? = some (s2.buf j) ∧ (s2.buf j).isSome := by
  intro ops
  induction ops with
  | nil =>
    intro s hWF s2 h
    cases h
    exact ⟨hWF, asList_length s, fun j hj => ⟨asList_getElem s j hj, hWF.2.2 j hj⟩⟩
  | cons op ops ih =>
    intro s hWF s2 h
    rw [runSafe] at h
    split at h
    · next hpre =>
      rw [Option.bind_eq_some] at h
      obtain ⟨sm, h1, h2⟩ := h
      exact ih sm (stepOp_wf hres hWF hpre h1) s2 h2
    · cases h

theorem C1_witness :
    ResvOk fixedResv ∧ WF startC1 ∧
    (runSafe fixedResv opsC1 startC1).elim False WF := by
  refine ⟨fixedResv_ok, by decide, ?_⟩
  cases hE : runSafe fixedResv opsC1 startC1 with
  | none =>
    have hs : (runSafe fixedResv opsC1 startC1).isSome = true := by decide
    rw [hE] at hs
    cases hs
  | some s2 =>
    exact (C1_safe_ops_preserve_invariant fixedResv fixedResv_ok opsC1 startC1
      (by decide) s2 hE).1

end CLGenericVec
